import Mathlib

/-!
# Go-GitCLI-Client: the staging, status, diff, commit and log core

A shallow embedding of `models/gitRepo.go` and `utils/gitUtils.go`.

* Go strings are Lean strings; every string operation is defined on the
  character list so that it computes by structural recursion.
* The file system is explicit state: a finite table of regular files and a
  list of directories, addressed by clean paths relative to the process
  working directory (one list element per path component).  Permission and
  device failures are outside the model; a missing path, a directory where a
  file is expected and a file where a directory is expected are inside it.
* A Go result pair `(string, error)` is a Lean pair `String × Option IOErr`.
* `time.Now()` is an input of `Commit` (the two formatted time stamps).
* `crypto/sha1`, `encoding/hex` and `encoding/json` are modelled in full for
  the use this program makes of them.
-/

namespace GitCLI

/-! ## Strings -/

/-- Go `s[:n]` on a string of one-byte characters. -/
def strTake (n : Nat) (s : String) : String := String.mk (s.data.take n)

/-- Go `s[n:]` on a string of one-byte characters. -/
def strDrop (n : Nat) (s : String) : String := String.mk (s.data.drop n)

/-- Go `strings.HasPrefix`. -/
def hasPrefixChars : List Char → List Char → Bool
  | _, [] => true
  | [], _ :: _ => false
  | c :: cs, p :: ps => if c = p then hasPrefixChars cs ps else false

/-- Go `strings.HasPrefix(s, pre)`. -/
def HasPrefix (s pre : String) : Bool := hasPrefixChars s.data pre.data

/-- Substring test on character lists (Go `strings.Contains`). -/
def containsChars : List Char → List Char → Bool
  | [], sub => hasPrefixChars [] sub
  | c :: cs, sub => hasPrefixChars (c :: cs) sub || containsChars cs sub

/-- Go `strings.Contains(s, sub)`. -/
def containsStr (s sub : String) : Bool := containsChars s.data sub.data

/-- Go `unicode.IsSpace`. -/
def isSpace (c : Char) : Bool :=
  let n := c.toNat
  (9 ≤ n && n ≤ 13) || n = 32 || n = 0x85 || n = 0xA0 || n = 0x1680 ||
  (0x2000 ≤ n && n ≤ 0x200A) || n = 0x2028 || n = 0x2029 || n = 0x202F ||
  n = 0x205F || n = 0x3000

/-- Go `strings.TrimSpace`. -/
def TrimSpace (s : String) : String :=
  String.mk ((s.data.dropWhile isSpace).reverse.dropWhile isSpace).reverse

/-- Pieces of a character list between occurrences of `sep`; the empty list
has the single empty piece, as Go `strings.Split` has. -/
def splitChars (sep : Char) : List Char → List (List Char)
  | [] => [[]]
  | c :: cs =>
    if c = sep then [] :: splitChars sep cs
    else
      match splitChars sep cs with
      | [] => [[c]]
      | w :: ws => (c :: w) :: ws

/-- Go `strings.Split(s, sep)` for a one-character separator. -/
def Split (s : String) (sep : Char) : List String :=
  (splitChars sep s.data).map String.mk

/-- Concatenation of a list of strings. -/
def concatAll : List String → String
  | [] => ""
  | s :: rest => s ++ concatAll rest

/-! ## SHA-1 and hexadecimal encoding -/

/-- UTF-8 bytes of one character (`[]byte(string)`). -/
def utf8Char (c : Char) : List Nat :=
  let n := c.toNat
  if n < 128 then [n]
  else if n < 2048 then [192 + n / 64, 128 + n % 64]
  else if n < 65536 then [224 + n / 4096, 128 + (n / 64) % 64, 128 + n % 64]
  else [240 + n / 262144, 128 + (n / 4096) % 64, 128 + (n / 64) % 64, 128 + n % 64]

/-- The bytes of a string. -/
def utf8 (s : String) : List Nat := s.data.flatMap utf8Char

/-- Rotate a 32-bit word left by `n` bits. -/
def rotl32 (n x : Nat) : Nat := ((x <<< n) ||| (x >>> (32 - n))) % 4294967296

/-- Addition of 32-bit words. -/
def add32 (a b : Nat) : Nat := (a + b) % 4294967296

/-- Big-endian 64-bit encoding of the message bit length. -/
def be64 (n : Nat) : List Nat :=
  [(n >>> 56) % 256, (n >>> 48) % 256, (n >>> 40) % 256, (n >>> 32) % 256,
   (n >>> 24) % 256, (n >>> 16) % 256, (n >>> 8) % 256, n % 256]

/-- SHA-1 padding: a 1 bit, zeros up to 56 mod 64 bytes, the bit length. -/
def sha1Pad (msg : List Nat) : List Nat :=
  let l := msg.length
  let k := (119 - l % 64) % 64
  msg ++ 128 :: (List.replicate k 0 ++ be64 (8 * l))

/-- The first `n` big-endian 32-bit words of a byte list. -/
def beWords : Nat → List Nat → List Nat
  | 0, _ => []
  | n + 1, b0 :: b1 :: b2 :: b3 :: rest =>
    (b0 * 16777216 + b1 * 65536 + b2 * 256 + b3) :: beWords n rest
  | _ + 1, _ => []

/-- Message schedule extension, newest word first: the head is w[t-1]. -/
def schedule : Nat → List Nat → List Nat
  | 0, ws => ws
  | n + 1, ws =>
    let w := rotl32 1 (ws.getD 2 0 ^^^ ws.getD 7 0 ^^^ ws.getD 13 0 ^^^ ws.getD 15 0)
    schedule n (w :: ws)

/-- The five chaining words of SHA-1. -/
structure Sha1State where
  a : Nat
  b : Nat
  c : Nat
  d : Nat
  e : Nat
deriving DecidableEq, Repr

/-- Round function of round `t`. -/
def sha1F (t b c d : Nat) : Nat :=
  if t < 20 then (b &&& c) ||| ((4294967295 - b) &&& d)
  else if t < 40 then b ^^^ c ^^^ d
  else if t < 60 then (b &&& c) ||| (b &&& d) ||| (c &&& d)
  else b ^^^ c ^^^ d

/-- Round constant of round `t`. -/
def sha1K (t : Nat) : Nat :=
  if t < 20 then 0x5A827999 else if t < 40 then 0x6ED9EBA1
  else if t < 60 then 0x8F1BBCDC else 0xCA62C1D6

/-- One SHA-1 round. -/
def sha1Round (s : Sha1State) (t w : Nat) : Sha1State :=
  ⟨add32 (add32 (add32 (add32 (rotl32 5 s.a) (sha1F t s.b s.c s.d)) s.e) w) (sha1K t),
   s.a, rotl32 30 s.b, s.c, s.d⟩

/-- The rounds over the schedule words, starting at round `t`. -/
def sha1Rounds : Sha1State → Nat → List Nat → Sha1State
  | s, _, [] => s
  | s, t, w :: ws => sha1Rounds (sha1Round s t w) (t + 1) ws

/-- Compression of one 64-byte block. -/
def sha1Block (h : Sha1State) (block : List Nat) : Sha1State :=
  let ws := (schedule 64 (beWords 16 block).reverse).reverse
  let s := sha1Rounds h 0 ws
  ⟨add32 h.a s.a, add32 h.b s.b, add32 h.c s.c, add32 h.d s.d, add32 h.e s.e⟩

/-- Compression of `n` consecutive blocks. -/
def sha1Blocks : Nat → Sha1State → List Nat → Sha1State
  | 0, h, _ => h
  | n + 1, h, bytes => sha1Blocks n (sha1Block h (bytes.take 64)) (bytes.drop 64)

/-- Big-endian bytes of a 32-bit word. -/
def be32 (w : Nat) : List Nat :=
  [(w / 16777216) % 256, (w / 65536) % 256, (w / 256) % 256, w % 256]

/-- The 20-byte SHA-1 digest (`sha1.New(); Write; Sum(nil)`). -/
def sha1Sum (msg : List Nat) : List Nat :=
  let p := sha1Pad msg
  let h := sha1Blocks (p.length / 64)
    ⟨0x67452301, 0xEFCDAB89, 0x98BADCFE, 0x10325476, 0xC3D2E1F0⟩ p
  be32 h.a ++ be32 h.b ++ be32 h.c ++ be32 h.d ++ be32 h.e

/-- The digits of `encoding/hex`. -/
def hexDigits : List Char := "0123456789abcdef".data

/-- One hexadecimal digit. -/
def hexDigit (n : Nat) : Char := hexDigits.getD n '0'

/-- Go `hex.EncodeToString`: high nibble, then low nibble, of every byte. -/
def hexEncode (bs : List Nat) : String :=
  String.mk (bs.flatMap fun b => [hexDigit ((b / 16) % 16), hexDigit (b % 16)])

/-- HashObject calculates the SHA-1 hash of an object. -/
def HashObject (content : String) : String := hexEncode (sha1Sum (utf8 content))

/-! ## File system -/

/-- A clean path relative to the process working directory. -/
abbrev Path := List String

/-- The errors the modelled system calls and `json.Unmarshal` return. -/
inductive IOErr where
  | notExist
  | isDir
  | notDir
  | badJSON
  | badType
deriving DecidableEq, Repr

deriving instance DecidableEq for Except

/-- Regular files with their contents, and directories.  The working
directory `[]` is always a directory. -/
structure FS where
  files : List (Path × String)
  dirs : List Path
deriving DecidableEq, Repr

/-- The content of the regular file at `p`, if there is one. -/
def fileAt : List (Path × String) → Path → Option String
  | [], _ => none
  | (q, c) :: rest, p => if q = p then some c else fileAt rest p

/-- Replace the content of `p`, or add `p` when it is new. -/
def setFile : List (Path × String) → Path → String → List (Path × String)
  | [], p, c => [(p, c)]
  | (q, d) :: rest, p, c => if q = p then (q, c) :: rest else (q, d) :: setFile rest p c

/-- The path `p` is a directory. -/
def isDirAt (fs : FS) (p : Path) : Bool := p.isEmpty || decide (p ∈ fs.dirs)

/-- The leading parts of `p`, shortest first, `p` itself excluded. -/
def properInits : Path → List Path
  | [] => []
  | c :: cs => [] :: (properInits cs).map (c :: ·)

/-- Some proper leading part of `p` is a regular file (the system call then
fails with ENOTDIR). -/
def underFile (fs : FS) (p : Path) : Bool :=
  (properInits p).any fun q => (fileAt fs.files q).isSome

/-- Go `os.Lstat`, reduced to what `info.IsDir()` reports. -/
def lstat (fs : FS) (p : Path) : Except IOErr Bool :=
  if underFile fs p then .error .notDir
  else if (fileAt fs.files p).isSome then .ok false
  else if isDirAt fs p then .ok true
  else .error .notExist

/-- Go `os.ReadFile`. -/
def ReadFile (fs : FS) (p : Path) : Except IOErr String :=
  if underFile fs p then .error .notDir
  else
    match fileAt fs.files p with
    | some c => .ok c
    | none => if isDirAt fs p then .error .isDir else .error .notExist

/-- Go `os.WriteFile`: create or truncate, then write. -/
def WriteFile (fs : FS) (p : Path) (c : String) : Except IOErr FS :=
  if underFile fs p then .error .notDir
  else if isDirAt fs p then .error .isDir
  else if isDirAt fs p.dropLast then .ok { fs with files := setFile fs.files p c }
  else .error .notExist

/-- Go `os.MkdirAll`: fails when `p` or a leading part of it is a regular
file, otherwise makes every missing directory on the way. -/
def MkdirAll (fs : FS) (p : Path) : Except IOErr FS :=
  if underFile fs p || (fileAt fs.files p).isSome then .error .notDir
  else
    .ok { fs with
      dirs := fs.dirs ++ ((properInits p ++ [p]).filter fun q => !isDirAt fs q) }

/-- Go `HashFile`: the SHA-1 of a file, or the empty string when the file
cannot be read. -/
def HashFile (fs : FS) (filePath : Path) : String :=
  match ReadFile fs filePath with
  | .error _ => ""
  | .ok content => hexEncode (sha1Sum (utf8 content))

/-! ## Paths -/

/-- The slash-separated text of a path; the empty path is `.`. -/
def pathString : Path → String
  | [] => "."
  | c :: cs =>
    match cs with
    | [] => c
    | _ :: _ => c ++ "/" ++ pathString cs

/-- Go `filepath.Clean` on path segments: empty and `.` segments vanish and
`..` removes the segment before it.  `acc` holds the segments kept so far,
last first. -/
def cleanSegs : List String → List String → Path
  | acc, [] => acc.reverse
  | acc, s :: rest =>
    if s = "" ∨ s = "." then cleanSegs acc rest
    else if s = ".." then
      match acc with
      | [] => cleanSegs [".."] rest
      | a :: acc1 =>
        if a = ".." then cleanSegs (".." :: a :: acc1) rest else cleanSegs acc1 rest
    else cleanSegs (s :: acc) rest

/-- Go `filepath.Join(base, elems...)` for a clean `base`. -/
def JoinAll (base : Path) (elems : List String) : Path :=
  cleanSegs base.reverse (elems.flatMap fun e => Split e '/')

/-- Go `filepath.Join(base, elem)`. -/
def Join (base : Path) (elem : String) : Path := JoinAll base [elem]

/-- Go `filepath.Rel(base, targ)` for a path `targ` that the walk of `base`
produced: what is left of `targ` after `base`. -/
def Rel (base targ : Path) : String := pathString (targ.drop base.length)

/-- Go `info.Name()`: the last component. -/
def baseName (p : Path) : String := p.getLastD ""

/-- Byte order on names, as `sort.Strings` uses. -/
def nameLt : List Char → List Char → Bool
  | _, [] => false
  | [], _ :: _ => true
  | a :: as, b :: bs =>
    if a.toNat < b.toNat then true
    else if b.toNat < a.toNat then false
    else nameLt as bs

/-- The order in which `filepath.Walk` reaches two files: by the first
component in which they differ. -/
def pathLe : Path → Path → Bool
  | [], _ => true
  | _ :: _, [] => false
  | a :: as, b :: bs => if a = b then pathLe as bs else nameLt a.data b.data

/-- The path `p` lies strictly below `root`. -/
def isBelow (root p : Path) : Bool :=
  decide (root.length < p.length) && decide (p.take root.length = root)

/-- The regular files a `filepath.Walk(root, fn)` hands to `fn`, in walk
order, for a callback that leaves the tree alone: the root itself when it is
a regular file, every regular file below it when it is a directory, and the
error of `os.Lstat` otherwise. -/
def walkFiles (fs : FS) (root : Path) : Except IOErr (List Path) :=
  match lstat fs root with
  | .error e => .error e
  | .ok false => .ok [root]
  | .ok true =>
    .ok (((fs.files.map Prod.fst).filter (isBelow root)).insertionSort
      fun a b => pathLe a b = true)

/-! ## Go maps -/

/-- A `map[string]string`; `range` is taken in list order, which is one of
the orders Go may choose. -/
abbrev GoMap := List (String × String)

/-- Lookup `m[k]` with the presence flag. -/
def mapGet : GoMap → String → Option String
  | [], _ => none
  | (k1, v) :: rest, k => if k1 = k then some v else mapGet rest k

/-- Assignment `m[k] = v`. -/
def mapSet : GoMap → String → String → GoMap
  | [], k, v => [(k, v)]
  | (k1, v1) :: rest, k, v => if k1 = k then (k1, v) :: rest else (k1, v1) :: mapSet rest k v

/-- Go `delete(m, k)`. -/
def mapDelete : GoMap → String → GoMap
  | [], _ => []
  | (k1, v1) :: rest, k => if k1 = k then rest else (k1, v1) :: mapDelete rest k

/-! ## encoding/json, as far as `json.Unmarshal(data, &config)` goes -/

/-- Config is the user configuration stored in config.json. -/
structure Config where
  Username : String
  Email : String
deriving DecidableEq, Repr

/-- What the decoder needs to know of a JSON value that it stores into a
string field or skips. -/
inductive JKind where
  | null
  | bool
  | number
  | str (s : String)
  | array
  | object
deriving DecidableEq, Repr

/-- The top-level JSON value: an object with its members, or anything else. -/
inductive JTop where
  | object (members : List (String × JKind))
  | other (k : JKind)
deriving DecidableEq, Repr

/-- JSON white space. -/
def isJSONSpace (c : Char) : Bool := c = ' ' || c = '\t' || c = '\n' || c = '\r'

/-- Skip JSON white space. -/
def skipWS (cs : List Char) : List Char := cs.dropWhile isJSONSpace

/-- Value of a hexadecimal digit of a `\u` escape. -/
def hexVal (c : Char) : Option Nat :=
  let n := c.toNat
  if 48 ≤ n ∧ n ≤ 57 then some (n - 48)
  else if 97 ≤ n ∧ n ≤ 102 then some (n - 87)
  else if 65 ≤ n ∧ n ≤ 70 then some (n - 55)
  else none

/-- The four hexadecimal digits of a `\u` escape. -/
def hex4 : List Char → Option (Nat × List Char)
  | a :: b :: c :: d :: rest =>
    match hexVal a, hexVal b, hexVal c, hexVal d with
    | some x, some y, some z, some w => some (x * 4096 + y * 256 + z * 16 + w, rest)
    | _, _, _, _ => none
  | _ => none

/-- The body of a JSON string after the opening quote, unquoted as
`encoding/json` does: a surrogate pair becomes one character and a lone
surrogate becomes U+FFFD.  `acc` holds the characters read, last first. -/
def parseString : Nat → List Char → List Char → Option (String × List Char)
  | 0, _, _ => none
  | _ + 1, _, [] => none
  | fuel + 1, acc, c :: rest =>
    if c = '"' then some (String.mk acc.reverse, rest)
    else if c.toNat < 32 then none
    else if c = '\\' then
      match rest with
      | [] => none
      | e :: rest1 =>
        if e = '"' ∨ e = '\\' ∨ e = '/' then parseString fuel (e :: acc) rest1
        else if e = 'b' then parseString fuel (Char.ofNat 8 :: acc) rest1
        else if e = 'f' then parseString fuel (Char.ofNat 12 :: acc) rest1
        else if e = 'n' then parseString fuel ('\n' :: acc) rest1
        else if e = 'r' then parseString fuel ('\r' :: acc) rest1
        else if e = 't' then parseString fuel ('\t' :: acc) rest1
        else if e = 'u' then
          match hex4 rest1 with
          | none => none
          | some (u, rest2) =>
            if 0xD800 ≤ u ∧ u < 0xE000 then
              match rest2 with
              | '\\' :: 'u' :: rest3 =>
                match hex4 rest3 with
                | some (v, rest4) =>
                  if u < 0xDC00 ∧ 0xDC00 ≤ v ∧ v < 0xE000 then
                    parseString fuel
                      (Char.ofNat ((u - 0xD800) * 1024 + (v - 0xDC00) + 0x10000) :: acc) rest4
                  else parseString fuel (Char.ofNat 0xFFFD :: acc) rest2
                | none => parseString fuel (Char.ofNat 0xFFFD :: acc) rest2
              | _ => parseString fuel (Char.ofNat 0xFFFD :: acc) rest2
            else parseString fuel (Char.ofNat u :: acc) rest2
        else none
    else parseString fuel (c :: acc) rest

/-- One or more decimal digits. -/
def digits1 (cs : List Char) : Option (List Char) :=
  match cs with
  | [] => none
  | c :: _ => if c.isDigit then some (cs.dropWhile Char.isDigit) else none

/-- A JSON number: optional minus, integer part without a leading zero,
optional fraction, optional exponent. -/
def parseNumber (cs : List Char) : Option (List Char) :=
  let cs1 := match cs with
    | '-' :: r => r
    | _ => cs
  let afterInt : Option (List Char) :=
    match cs1 with
    | '0' :: r => some r
    | _ => digits1 cs1
  match afterInt with
  | none => none
  | some r =>
    let afterFrac : Option (List Char) :=
      match r with
      | '.' :: r1 => digits1 r1
      | _ => some r
    match afterFrac with
    | none => none
    | some r2 =>
      match r2 with
      | c :: r3 =>
        if c = 'e' ∨ c = 'E' then
          match r3 with
          | s :: r4 => if s = '+' ∨ s = '-' then digits1 r4 else digits1 r3
          | [] => none
        else some r2
      | [] => some r2

mutual
/-- One JSON value; `depth` counts the enclosing arrays and objects, which
`encoding/json` limits to 10000. -/
def parseValue : Nat → Nat → List Char → Option (JKind × List Char)
  | 0, _, _ => none
  | fuel + 1, depth, cs =>
    match skipWS cs with
    | [] => none
    | c :: rest =>
      if c = '{' then
        if depth ≥ 10000 then none
        else
          match parseMembers fuel (depth + 1) true rest with
          | some (_, r) => some (.object, r)
          | none => none
      else if c = '[' then
        if depth ≥ 10000 then none else parseElems fuel (depth + 1) true rest
      else if c = '"' then
        match parseString fuel [] rest with
        | some (s, r) => some (.str s, r)
        | none => none
      else if c = 't' then
        match rest with
        | 'r' :: 'u' :: 'e' :: r => some (.bool, r)
        | _ => none
      else if c = 'f' then
        match rest with
        | 'a' :: 'l' :: 's' :: 'e' :: r => some (.bool, r)
        | _ => none
      else if c = 'n' then
        match rest with
        | 'u' :: 'l' :: 'l' :: r => some (.null, r)
        | _ => none
      else
        match parseNumber (c :: rest) with
        | some r => some (.number, r)
        | none => none
/-- The members of an object after `{` (when `first`) or after a member. -/
def parseMembers : Nat → Nat → Bool → List Char →
    Option (List (String × JKind) × List Char)
  | 0, _, _, _ => none
  | fuel + 1, depth, first, cs =>
    match skipWS cs with
    | [] => none
    | c :: rest =>
      if c = '}' ∧ first = true then some ([], rest)
      else if c = '"' then
        match parseString fuel [] rest with
        | none => none
        | some (key, r1) =>
          match skipWS r1 with
          | ':' :: r2 =>
            match parseValue fuel depth r2 with
            | none => none
            | some (v, r3) =>
              match skipWS r3 with
              | ',' :: r4 =>
                match parseMembers fuel depth false r4 with
                | some (ms, r5) => some ((key, v) :: ms, r5)
                | none => none
              | '}' :: r4 => some ([(key, v)], r4)
              | _ => none
          | _ => none
      else none
/-- The elements of an array after `[` (when `first`) or after an element. -/
def parseElems : Nat → Nat → Bool → List Char → Option (JKind × List Char)
  | 0, _, _, _ => none
  | fuel + 1, depth, first, cs =>
    match skipWS cs with
    | [] => none
    | c :: rest =>
      if c = ']' ∧ first = true then some (.array, rest)
      else
        match parseValue fuel depth (c :: rest) with
        | none => none
        | some (_, r1) =>
          match skipWS r1 with
          | ',' :: r2 => parseElems fuel depth false r2
          | ']' :: r2 => some (.array, r2)
          | _ => none
end

/-- A whole JSON document: one value with white space around it. -/
def parseTop (cs : List Char) : Option JTop :=
  let fuel := 2 * cs.length + 2
  match skipWS cs with
  | '{' :: rest =>
    match parseMembers fuel 1 true rest with
    | some (ms, r) => if skipWS r = [] then some (.object ms) else none
    | none => none
  | other =>
    match parseValue fuel 0 other with
    | some (k, r) => if skipWS r = [] then some (.other k) else none
    | none => none

/-- The case folding under which `encoding/json` matches an object key to a
field name: ASCII letters, the long s and the Kelvin sign. -/
def foldChar (c : Char) : Char :=
  let n := c.toNat
  if 97 ≤ n ∧ n ≤ 122 then Char.ofNat (n - 32)
  else if n = 0x17F then 'S'
  else if n = 0x212A then 'K'
  else c

/-- The field of `Config` that an object key names: 0 for `username`, 1 for
`email`. -/
def fieldOf (key : String) : Option Nat :=
  if key = "username" then some 0
  else if key = "email" then some 1
  else if key.data.map foldChar = "USERNAME".data then some 0
  else if key.data.map foldChar = "EMAIL".data then some 1
  else none

/-- Decode one object member into the configuration; the first type error
is kept and decoding goes on. -/
def decodeMember (st : Config × Option IOErr) (m : String × JKind) : Config × Option IOErr :=
  match fieldOf m.1, m.2 with
  | none, _ => st
  | some _, .null => st
  | some f, .str s =>
    if f = 0 then ({ st.1 with Username := s }, st.2) else ({ st.1 with Email := s }, st.2)
  | some _, _ =>
    match st.2 with
    | some _ => st
    | none => (st.1, some .badType)

/-- Go `json.Unmarshal(data, &config)` on a zero `Config`. -/
def jsonUnmarshal (data : String) : Except IOErr Config :=
  match parseTop data.data with
  | none => .error .badJSON
  | some (.other .null) => .ok ⟨"", ""⟩
  | some (.other _) => .error .badType
  | some (.object members) =>
    match members.foldl decodeMember (⟨"", ""⟩, none) with
    | (_, some e) => .error e
    | (config, none) => .ok config

/-! ## utils/gitUtils.go -/

/-- DecodeObject decodes the object content stored in the repository: the
content is taken as already decoded. -/
def DecodeObject (content : String) : Except IOErr String := .ok content

/-- The table of `IsExcluded`. -/
def excludedFiles : List (String × Bool) :=
  [("HEAD", true), ("config", true), ("config.json", true), ("description", true),
   ("index", true), ("objects", true)]

/-- IsExcluded looks the relative path up in the table of excluded files; a
path that is not a key gives false. -/
def IsExcluded (file : String) : Bool :=
  match excludedFiles.find? fun kv => decide (kv.1 = file) with
  | some kv => kv.2
  | none => false

/-- ListFiles returns the relative paths of the regular files of a
directory, in walk order. -/
def ListFiles (fs : FS) (dirPath : Path) : List String × Option IOErr :=
  match walkFiles fs dirPath with
  | .error e => ([], some e)
  | .ok paths => (paths.map (Rel dirPath), none)

/-! ## models/gitRepo.go -/

/-- GitRepo is the repository handle. -/
structure GitRepo where
  Path : Path
  Username : String
  Email : String
deriving DecidableEq, Repr

/-- NewGitRepo makes the `.git` directory below `path` and returns the handle. -/
def NewGitRepo (fs : FS) (path : Path) : Except IOErr (GitRepo × FS) :=
  match MkdirAll fs (Join path ".git") with
  | .error e => .error e
  | .ok fs1 => .ok (⟨Join path ".git", "", ""⟩, fs1)

/-- The default files of `Init`, in the order of the source text (Go ranges
over them in an unspecified order). -/
def defaultFiles : List (String × String) :=
  [("config",
    "[core]\n\trepositoryformatversion = 0\n\tfilemode = true\n\tbare = false\n\tlogallrefupdates = true\n"),
   ("description",
    "Unnamed repository; edit this file 'description' to name the repository.\n"),
   ("HEAD", "ref: refs/heads/master\n"),
   ("config.json", "")]

/-- The directory loop of `Init`. -/
def initDirs (repo : GitRepo) : FS → List String → Option IOErr × FS
  | fs, [] => (none, fs)
  | fs, subdir :: rest =>
    match MkdirAll fs (Join repo.Path subdir) with
    | .error e => (some e, fs)
    | .ok fs1 => initDirs repo fs1 rest

/-- The file loop of `Init`. -/
def initFiles (repo : GitRepo) : FS → List (String × String) → Option IOErr × FS
  | fs, [] => (none, fs)
  | fs, (filename, content) :: rest =>
    match WriteFile fs (Join repo.Path filename) content with
    | .error e => (some e, fs)
    | .ok fs1 => initFiles repo fs1 rest

/-- Init initializes an empty repository. -/
def Init (repo : GitRepo) (fs : FS) : Option IOErr × FS :=
  match initDirs repo fs ["objects", "refs/heads", "refs/tags"] with
  | (some e, fs1) => (some e, fs1)
  | (none, fs1) => initFiles repo fs1 defaultFiles

/-- LoadConfig reads config.json into the handle. -/
def LoadConfig (repo : GitRepo) (fs : FS) : Except IOErr GitRepo :=
  match ReadFile fs (Join repo.Path "config.json") with
  | .error e => .error e
  | .ok data =>
    match jsonUnmarshal data with
    | .error e => .error e
    | .ok config => .ok { repo with Username := config.Username, Email := config.Email }

/-- The immediate children of a directory, in name order, as
`readDirNames` lists them. -/
def childPaths (fs : FS) (dir : Path) : List Path :=
  let below := (fs.files.map Prod.fst ++ fs.dirs).filter (isBelow dir)
  let names := (below.map fun p => p.getD dir.length "").dedup
  (names.insertionSort fun a b => nameLt b.data a.data = false).map fun n => dir ++ [n]

/-- The walk of `Add`.  Its callback writes the index while the walk goes
on, so the walk is modelled step by step: `pending` holds the paths still to
visit, a directory is listed when it is reached, and a regular file is read,
hashed and recorded in the index, which the write replaces as a whole.  The
fuel bounds the number of visits; the walk returns `none` only when it is
used up. -/
def addWalk (repo : GitRepo) : Nat → FS → List Path → Option (Option IOErr × FS)
  | 0, _, _ => none
  | _ + 1, fs, [] => some (none, fs)
  | fuel + 1, fs, path :: rest =>
    match lstat fs path with
    | .error e => some (some e, fs)
    | .ok true => addWalk repo fuel fs (childPaths fs path ++ rest)
    | .ok false =>
      match ReadFile fs path with
      | .error e => some (some e, fs)
      | .ok fileContent =>
        let fileHash := hexEncode (sha1Sum (utf8 fileContent))
        let indexPath := Join repo.Path "index"
        match WriteFile fs indexPath (fileHash ++ " " ++ pathString path ++ "\n") with
        | .error e => some (some e, fs)
        | .ok fs1 => addWalk repo fuel fs1 rest

/-- Add adds a file to the index.  The fuel is the number of paths of the
tree and three more: every path is visited at most once and the walk creates
at most one file. -/
def Add (repo : GitRepo) (fs : FS) (filePath : Path) : Option (Option IOErr × FS) :=
  addWalk repo (fs.files.length + fs.dirs.length + 3) fs [filePath]

/-- The callback of the walk in `Status`. -/
def scanStep (repo : GitRepo) (fs : FS) (workingDirFiles : GoMap) (path : Path) : GoMap :=
  let relativePath := Rel repo.Path path
  if !IsExcluded relativePath then mapSet workingDirFiles relativePath (HashFile fs path)
  else workingDirFiles

/-- The working-directory snapshot that `Status` builds first. -/
def scanWorkingDir (repo : GitRepo) (fs : FS) : Except IOErr GoMap :=
  match walkFiles fs repo.Path with
  | .error e => .error e
  | .ok paths => .ok (paths.foldl (scanStep repo fs) [])

/-- The text `Status` returns when there is no index. -/
def noCommitsYet : String :=
  "No commits yet\nnothing to commit (create/copy files and use \"git add\" to track)\n"

/-- The variables of the comparison loop of `Status`. -/
structure StatusVars where
  indexHashes : GoMap
  changesToBeCommitted : List String
  untrackedFiles : List String
deriving DecidableEq, Repr

/-- One round of the loop over the working-directory files. -/
def compareStep (v : StatusVars) (entry : String × String) : StatusVars :=
  let file := entry.1
  let workingDirHash := entry.2
  match mapGet v.indexHashes file with
  | some indexHash =>
    let changes :=
      if workingDirHash ≠ indexHash then v.changesToBeCommitted ++ ["\tmodified:   " ++ file]
      else v.changesToBeCommitted
    { v with changesToBeCommitted := changes, indexHashes := mapDelete v.indexHashes file }
  | none => { v with untrackedFiles := v.untrackedFiles ++ ["\t" ++ file] }

/-- The status message from the two lists. -/
def statusText (changesToBeCommitted untrackedFiles : List String) : String :=
  let m0 := "On branch master\n\n"
  let m1 :=
    if changesToBeCommitted.length > 0 then
      changesToBeCommitted.foldl (fun m change => m ++ (change ++ "\n"))
        (m0 ++ "Changes to be committed:\n")
    else m0
  if untrackedFiles.length > 0 then
    untrackedFiles.foldl (fun m untrackedFile => m ++ (untrackedFile ++ "\n"))
      (m1 ++ "\nUntracked files:\n")
  else m1

/-- Status displays the repository status. -/
def Status (repo : GitRepo) (fs : FS) : String × Option IOErr :=
  match scanWorkingDir repo fs with
  | .error e => ("", some e)
  | .ok workingDirFiles =>
    match ReadFile fs (Join repo.Path "index") with
    | .error e => if e = .notExist then (noCommitsYet, none) else ("", some e)
    | .ok indexContent =>
      let indexFiles := Split (TrimSpace indexContent) '\n'
      let indexHashes : GoMap := indexFiles.foldl
        (fun m indexFile => mapSet m indexFile (HashFile fs (Join repo.Path indexFile))) []
      let v := workingDirFiles.foldl compareStep ⟨indexHashes, [], []⟩
      let changes := v.indexHashes.foldl
        (fun cs kv => cs ++ ["\tdeleted:   " ++ kv.1]) v.changesToBeCommitted
      (statusText changes v.untrackedFiles, none)

/-- The commit record that `Commit` formats; `now1` and `now2` are the two
readings of the clock in the layouts `Mon Jan 2 15:04:05 2006 -0700` and
RFC 1123. -/
def commitRecord (username email now1 now2 message : String) : String :=
  "commit " ++ now1 ++ "\nAuthor: " ++ username ++ " <" ++ email ++ ">\nDate: " ++ now2 ++
    "\n\n" ++ message ++ "\n"

/-- Commit creates a new commit: it returns the hash and the error, and the
file system it leaves.  The handle fields that `LoadConfig` fills are read
only here, after the load. -/
def Commit (repo : GitRepo) (fs : FS) (now1 now2 message : String) :
    (String × Option IOErr) × FS :=
  match LoadConfig repo fs with
  | .error errLoadCfg => (("", some errLoadCfg), fs)
  | .ok repo1 =>
    let commitContent := commitRecord repo1.Username repo1.Email now1 now2 message
    let commitHash := HashObject commitContent
    let commitPath :=
      JoinAll repo1.Path ["objects", strTake 2 commitHash, strDrop 2 commitHash]
    match MkdirAll fs (JoinAll repo1.Path ["objects", strTake 2 commitHash]) with
    | .error e => (("", some e), fs)
    | .ok fs1 =>
      match WriteFile fs1 commitPath commitContent with
      | .error e => (("", some e), fs1)
      | .ok fs2 => ((commitHash, none), fs2)

/-- The loop of `Diff` over the working-directory files. -/
def diffLoop (repo : GitRepo) (fs : FS) (indexFiles : List String) :
    List String → String → String × Option IOErr
  | [], diffOutput => (diffOutput, none)
  | file :: rest, diffOutput =>
    if decide (file ∈ indexFiles) then diffLoop repo fs indexFiles rest diffOutput
    else
      let out1 := diffOutput ++ ("diff --git a/" ++ file ++ " b/" ++ file ++ "\n")
      let out2 := out1 ++ "new file mode 100644\n"
      let out3 := out2 ++ "--- /dev/null\n"
      let out4 := out3 ++ ("+++ b/" ++ file ++ "\n")
      match ReadFile fs (Join repo.Path file) with
      | .error e => ("", some e)
      | .ok fileContent => diffLoop repo fs indexFiles rest (out4 ++ (fileContent ++ "\n"))

/-- Diff calculates and displays the difference between files. -/
def Diff (repo : GitRepo) (fs : FS) : String × Option IOErr :=
  match ListFiles fs repo.Path with
  | (_, some e) => ("", some e)
  | (files, none) =>
    match ReadFile fs (Join repo.Path "index") with
    | .error e => ("", some e)
    | .ok indexContent =>
      let indexFiles := Split (TrimSpace indexContent) '\n'
      diffLoop repo fs indexFiles files ""

/-- The callback of the walk in `Logs`, over the files of the walk. -/
def logsLoop (fs : FS) : List Path → String → String × Option IOErr
  | [], logsOutput => (logsOutput, none)
  | path :: rest, logsOutput =>
    match ReadFile fs path with
    | .error e => ("", some e)
    | .ok objectContent =>
      match DecodeObject objectContent with
      | .error e => ("", some e)
      | .ok decodedContent =>
        if HasPrefix decodedContent "commit" then
          logsLoop fs rest
            (logsOutput ++ ("commit " ++ baseName path ++ "\n") ++ (decodedContent ++ "\n\n"))
        else logsLoop fs rest logsOutput

/-- Logs retrieves the history of commits. -/
def Logs (repo : GitRepo) (fs : FS) : String × Option IOErr :=
  match walkFiles fs (Join repo.Path "objects") with
  | .error e => ("", some e)
  | .ok paths => logsLoop fs paths ""

/-! ## The log in the words of the specification -/

/-- The stored objects at the given paths, each with its content. -/
def storedObjects (fs : FS) (paths : List Path) : List (Path × String) :=
  paths.filterMap fun p =>
    match ReadFile fs p with
    | .ok c => some (p, c)
    | .error _ => none

/-- The rendered block of one commit object: the identifier derived from
where the object is stored, and the raw text. -/
def logBlock (o : Path × String) : String :=
  "commit " ++ baseName o.1 ++ "\n" ++ o.2 ++ "\n\n"

/-- The log as the specification words it: the blocks, in enumeration
order, of the stored objects whose content begins with the marker `commit`. -/
def logText (objs : List (Path × String)) : String :=
  concatAll ((objs.filter fun o => HasPrefix o.2 "commit").map logBlock)

/-- A readable store: the objects directory can be walked and every object
in it can be read. -/
def readableStore (repo : GitRepo) (fs : FS) : Bool :=
  match walkFiles fs (repo.Path ++ ["objects"]) with
  | .error _ => false
  | .ok paths =>
    paths.all fun p =>
      match ReadFile fs p with
      | .ok _ => true
      | .error _ => false

/-- A plain path component: not empty, no slash, neither `.` nor `..`. -/
def plainName (s : String) : Prop :=
  '/' ∉ s.data ∧ s ≠ "" ∧ s ≠ "." ∧ s ≠ ".."

/-- A well-formed tree: no regular file lies below a regular file, and every
leading part of the path of a regular file is a directory. -/
def wellFormed (fs : FS) : Bool :=
  fs.files.all fun e => !underFile fs e.1 && (properInits e.1).all (isDirAt fs)

/-! ## Concrete repositories -/

/-- The handle that `main` builds with `NewGitRepo(".")`. -/
def mainRepo : GitRepo := ⟨[".git"], "", ""⟩

/-- The tree right after `NewGitRepo(".")` in an empty directory. -/
def emptyTree : FS := ⟨[], [[".git"]]⟩

/-- The tree after `git init`. -/
def initTree : FS := (Init mainRepo emptyTree).2

/-- A file saved by the user; the tree is left alone when the write fails. -/
def saveFile (fs : FS) (p : Path) (c : String) : FS :=
  match WriteFile fs p c with
  | .ok fs1 => fs1
  | .error _ => fs

/-- The tree left by `git add`; the tree is left alone when the walk fails. -/
def afterAdd (repo : GitRepo) (fs : FS) (p : Path) : FS :=
  match Add repo fs p with
  | some (_, fs1) => fs1
  | none => fs

/-- The config.json that `git config alice a@x.com` writes. -/
def aliceConfig : String :=
  "\x7b\n  \"username\": \"alice\",\n  \"email\": \"a@x.com\"\n\x7d"

/-- The tree after `git init` and `git config alice a@x.com`. -/
def configuredTree : FS := saveFile initTree [".git", "config.json"] aliceConfig

/-- The tree after `git commit first` at the given clock readings. -/
def committedTree : FS :=
  (Commit mainRepo configuredTree "Sun Nov 1 12:00:00 2026 +0000"
    "Sun, 01 Nov 2026 12:00:00 UTC" "first").2

/-- The tree after `git init` with a file `a.txt` saved in the repository
directory and staged. -/
def stagedTree : FS :=
  afterAdd mainRepo (saveFile initTree [".git", "a.txt"] "hello") [".git", "a.txt"]

/-- The staged file edited afterwards. -/
def editedTree : FS := saveFile stagedTree [".git", "a.txt"] "world"

/-- The tree after `git init` with two files saved next to the repository
directory. -/
def twoFilesTree : FS := saveFile (saveFile initTree ["a.txt"] "hello") ["b.txt"] "world"

/-- The tree after the commit, with a file saved next to the repository
directory and staged. -/
def committedStagedTree : FS :=
  afterAdd mainRepo (saveFile committedTree ["b.txt"] "world") ["b.txt"]

/-! ## Lemmas on the file system -/

theorem mem_properInits {p q : Path} :
    q ∈ properInits p ↔ ∃ c r, p = q ++ c :: r := by
  induction p generalizing q with
  | nil => simp [properInits]
  | cons a as ih =>
    simp only [properInits, List.mem_cons, List.mem_map]
    constructor
    · rintro (rfl | ⟨q1, hq1, rfl⟩)
      · exact ⟨a, as, rfl⟩
      · obtain ⟨c, r, rfl⟩ := ih.mp hq1
        exact ⟨c, r, rfl⟩
    · rintro ⟨c, r, h⟩
      cases q with
      | nil => exact Or.inl rfl
      | cons b bs =>
        simp only [List.cons_append, List.cons.injEq] at h
        obtain ⟨rfl, rfl⟩ := h
        exact Or.inr ⟨bs, ih.mpr ⟨c, r, rfl⟩, rfl⟩

theorem underFile_eq_false {fs : FS} {p : Path} :
    underFile fs p = false ↔ ∀ q c r, p = q ++ c :: r → fileAt fs.files q = none := by
  unfold underFile
  rw [Bool.eq_false_iff, Ne, List.any_eq_true]
  constructor
  · intro h q c r hp
    by_contra hne
    apply h
    refine ⟨q, mem_properInits.mpr ⟨c, r, hp⟩, ?_⟩
    cases hq : fileAt fs.files q with
    | none => exact absurd hq hne
    | some v => rfl
  · rintro h ⟨q, hq, hsome⟩
    obtain ⟨c, r, hp⟩ := mem_properInits.mp hq
    rw [h q c r hp] at hsome
    exact absurd hsome (by decide)

theorem fileAt_setFile_same (l : List (Path × String)) (p : Path) (c : String) :
    fileAt (setFile l p c) p = some c := by
  induction l with
  | nil => simp [setFile, fileAt]
  | cons hd tl ih =>
    obtain ⟨q, d⟩ := hd
    by_cases hq : q = p
    · simp [setFile, fileAt, hq]
    · simp [setFile, fileAt, hq, ih]

theorem fileAt_setFile_ne (l : List (Path × String)) {p q : Path} (c : String) (h : q ≠ p) :
    fileAt (setFile l p c) q = fileAt l q := by
  induction l with
  | nil =>
    have : ¬ p = q := fun e => h e.symm
    simp [setFile, fileAt, this]
  | cons hd tl ih =>
    obtain ⟨r, d⟩ := hd
    by_cases hr : r = p
    · subst hr
      have : ¬ r = q := fun e => h e.symm
      simp [setFile, fileAt, this]
    · by_cases hrq : r = q
      · subst hrq
        simp [setFile, fileAt, hr]
      · simp [setFile, fileAt, hr, hrq, ih]

theorem mem_paths_setFile (l : List (Path × String)) (p : Path) (c : String) :
    p ∈ (setFile l p c).map Prod.fst := by
  induction l with
  | nil => simp [setFile]
  | cons hd tl ih =>
    obtain ⟨q, d⟩ := hd
    by_cases hq : q = p
    · simp [setFile, hq]
    · simp only [setFile, hq, if_false, List.map_cons, List.mem_cons]
      exact Or.inr ih

theorem underFile_setFile {fs : FS} {p q : Path} (c : String)
    (hq : underFile fs q = false) (hp : ∀ d r, q ≠ p ++ d :: r) :
    underFile { fs with files := setFile fs.files p c } q = false := by
  rw [underFile_eq_false] at hq ⊢
  intro q1 d r hq1
  have hne : q1 ≠ p := by
    rintro rfl
    exact hp d r hq1
  show fileAt (setFile fs.files p c) q1 = none
  rw [fileAt_setFile_ne _ c hne]
  exact hq q1 d r hq1

theorem ReadFile_WriteFile {fs fs1 : FS} {p : Path} {c : String}
    (h : WriteFile fs p c = .ok fs1) : ReadFile fs1 p = .ok c := by
  unfold WriteFile at h
  split at h
  · cases h
  · rename_i hu
    split at h
    · cases h
    · split at h
      · cases h
        have hu1 : underFile fs p = false := by simpa using hu
        have hu2 := @underFile_setFile fs p p c hu1 (by
          intro d r e
          have := congrArg List.length e
          simp at this)
        simp [ReadFile, hu2, fileAt_setFile_same]
      · cases h

theorem WriteFile_files {fs fs1 : FS} {p : Path} {c : String}
    (h : WriteFile fs p c = .ok fs1) :
    fs1.files = setFile fs.files p c ∧ fs1.dirs = fs.dirs ∧ underFile fs p = false := by
  unfold WriteFile at h
  split at h
  · cases h
  · rename_i hu
    split at h
    · cases h
    · split at h
      · cases h
        exact ⟨rfl, rfl, by simpa using hu⟩
      · cases h

theorem WriteFile_eq {fs fs1 : FS} {p : Path} {c : String}
    (h : WriteFile fs p c = .ok fs1) : fs1 = { fs with files := setFile fs.files p c } := by
  obtain ⟨hf, hd, _⟩ := WriteFile_files h
  cases fs1
  simp only at hf hd
  rw [hf, hd]

theorem MkdirAll_ok {fs fs1 : FS} {p : Path} (h : MkdirAll fs p = .ok fs1) :
    fs1.files = fs.files ∧ underFile fs p = false ∧ fileAt fs.files p = none ∧
      (∀ q, q ∈ fs.dirs → q ∈ fs1.dirs) ∧
      (∀ q, (q = p ∨ q ∈ properInits p) → isDirAt fs1 q = true) := by
  unfold MkdirAll at h
  split at h
  · cases h
  · rename_i hc
    cases h
    simp only [Bool.or_eq_true, not_or, Bool.not_eq_true] at hc
    refine ⟨rfl, hc.1, ?_, ?_, ?_⟩
    · cases hf : fileAt fs.files p with
      | none => rfl
      | some v => rw [hf] at hc; exact absurd hc.2 (by simp)
    · intro q hq
      exact List.mem_append_left _ hq
    · intro q hq
      by_cases hd : isDirAt fs q = true
      · unfold isDirAt at hd ⊢
        simp only [Bool.or_eq_true, decide_eq_true_eq] at hd ⊢
        rcases hd with hd | hd
        · exact Or.inl hd
        · exact Or.inr (List.mem_append_left _ hd)
      · have hd1 : (!isDirAt fs q) = true := by simpa using hd
        have hmem : q ∈ properInits p ++ [p] := by
          rcases hq with rfl | hq
          · simp
          · exact List.mem_append_left _ hq
        unfold isDirAt
        simp only [Bool.or_eq_true, decide_eq_true_eq]
        right
        apply List.mem_append_right
        rw [List.mem_filter]
        exact ⟨hmem, hd1⟩

/-! ## Lemmas on paths and hashes -/


theorem splitChars_of_not_mem (sep : Char) (cs : List Char) (h : sep ∉ cs) :
    splitChars sep cs = [cs] := by
  induction cs with
  | nil => rfl
  | cons c rest ih =>
    have hc : ¬ c = sep := fun e => h (by simp [e])
    have hr : sep ∉ rest := fun e => h (List.mem_cons_of_mem _ e)
    simp [splitChars, hc, ih hr]

theorem Split_plain {s : String} (h : plainName s) : Split s '/' = [s] := by
  simp [Split, splitChars_of_not_mem '/' s.data h.1]

theorem cleanSegs_plain (acc names : List String) (h : ∀ n ∈ names, plainName n) :
    cleanSegs acc names = acc.reverse ++ names := by
  induction names generalizing acc with
  | nil => simp [cleanSegs]
  | cons n rest ih =>
    have hn := h n (List.mem_cons_self _ _)
    have h1 : ¬ (n = "" ∨ n = ".") := by
      rintro (e | e)
      · exact hn.2.1 e
      · exact hn.2.2.1 e
    have h2 : ¬ n = ".." := hn.2.2.2
    have step : cleanSegs acc (n :: rest) = cleanSegs (n :: acc) rest := by
      simp only [cleanSegs, if_neg h1, if_neg h2]
    rw [step, ih _ (fun m hm => h m (List.mem_cons_of_mem _ hm))]
    simp

theorem JoinAll_plain (base : Path) (names : List String) (h : ∀ n ∈ names, plainName n) :
    JoinAll base names = base ++ names := by
  unfold JoinAll
  have hs : (names.flatMap fun e => Split e '/') = names := by
    induction names with
    | nil => rfl
    | cons n rest ih =>
      rw [List.flatMap_cons, Split_plain (h n (List.mem_cons_self _ _)),
        ih (fun m hm => h m (List.mem_cons_of_mem _ hm))]
      rfl
  rw [hs, cleanSegs_plain _ _ h]
  simp

theorem plainName_index : plainName "index" := by
  refine ⟨by decide, by decide, by decide, by decide⟩

theorem plainName_config_json : plainName "config.json" := by
  refine ⟨by decide, by decide, by decide, by decide⟩

theorem plainName_objects : plainName "objects" := by
  refine ⟨by decide, by decide, by decide, by decide⟩

theorem Join_index (base : Path) : Join base "index" = base ++ ["index"] :=
  JoinAll_plain base ["index"] (by simpa using plainName_index)

theorem Join_config_json (base : Path) : Join base "config.json" = base ++ ["config.json"] :=
  JoinAll_plain base ["config.json"] (by simpa using plainName_config_json)

theorem Join_objects (base : Path) : Join base "objects" = base ++ ["objects"] :=
  JoinAll_plain base ["objects"] (by simpa using plainName_objects)

theorem hexDigit_mem (n : Nat) (h : n < 16) : hexDigit n ∈ hexDigits := by
  interval_cases n <;> decide

theorem hexEncode_length (bs : List Nat) : (hexEncode bs).length = 2 * bs.length := by
  show (bs.flatMap _).length = _
  induction bs with
  | nil => rfl
  | cons b rest ih =>
    rw [List.flatMap_cons, List.length_append, ih]
    simp only [List.length_cons, List.length_nil]
    omega

theorem hexEncode_digits (bs : List Nat) : ∀ c ∈ (hexEncode bs).data, c ∈ hexDigits := by
  intro c hc
  have hc1 : c ∈ bs.flatMap fun b => [hexDigit ((b / 16) % 16), hexDigit (b % 16)] := hc
  rw [List.mem_flatMap] at hc1
  obtain ⟨b, _, hb⟩ := hc1
  simp only [List.mem_cons, List.mem_singleton, List.not_mem_nil, or_false] at hb
  rcases hb with rfl | rfl
  · exact hexDigit_mem _ (Nat.mod_lt _ (by decide))
  · exact hexDigit_mem _ (Nat.mod_lt _ (by decide))

theorem sha1Sum_length (msg : List Nat) : (sha1Sum msg).length = 20 := by
  simp [sha1Sum, be32]

theorem HashObject_length (content : String) : (HashObject content).length = 40 := by
  rw [HashObject, hexEncode_length, sha1Sum_length]

theorem HashObject_digits (content : String) :
    ∀ c ∈ (HashObject content).data, c ∈ hexDigits :=
  hexEncode_digits _

theorem plainName_of_digits (s : String) (hne : s.data ≠ [])
    (h : ∀ c ∈ s.data, c ∈ hexDigits) : plainName s := by
  have hslash : '/' ∉ s.data := fun hm => absurd (h _ hm) (by decide)
  have hdot : '.' ∉ s.data := fun hm => absurd (h _ hm) (by decide)
  refine ⟨hslash, ?_, ?_, ?_⟩
  · intro e
    apply hne
    rw [e]
  · intro e
    apply hdot
    rw [e]
    decide
  · intro e
    apply hdot
    rw [e]
    decide

theorem plainName_hash_take (content : String) : plainName (strTake 2 (HashObject content)) := by
  apply plainName_of_digits
  · intro e
    have hl := HashObject_length content
    have : ((HashObject content).data.take 2).length = 0 := by
      have e1 : (HashObject content).data.take 2 = [] := e
      rw [e1]; rfl
    rw [List.length_take] at this
    have hl1 : (HashObject content).data.length = 40 := hl
    omega
  · intro c hc
    exact HashObject_digits content c (List.mem_of_mem_take hc)

theorem plainName_hash_drop (content : String) : plainName (strDrop 2 (HashObject content)) := by
  apply plainName_of_digits
  · intro e
    have hl := HashObject_length content
    have : ((HashObject content).data.drop 2).length = 0 := by
      have e1 : (HashObject content).data.drop 2 = [] := e
      rw [e1]; rfl
    rw [List.length_drop] at this
    have hl1 : (HashObject content).data.length = 40 := hl
    omega
  · intro c hc
    exact HashObject_digits content c (List.mem_of_mem_drop hc)

theorem Join_hash (base : Path) (content : String) :
    JoinAll base ["objects", strTake 2 (HashObject content), strDrop 2 (HashObject content)] =
      base ++ ["objects", strTake 2 (HashObject content), strDrop 2 (HashObject content)] := by
  apply JoinAll_plain
  intro n hn
  simp only [List.mem_cons, List.mem_singleton, List.not_mem_nil, or_false] at hn
  rcases hn with rfl | rfl | rfl
  · exact plainName_objects
  · exact plainName_hash_take content
  · exact plainName_hash_drop content

theorem Join_hash_dir (base : Path) (content : String) :
    JoinAll base ["objects", strTake 2 (HashObject content)] =
      base ++ ["objects", strTake 2 (HashObject content)] := by
  apply JoinAll_plain
  intro n hn
  simp only [List.mem_cons, List.mem_singleton, List.not_mem_nil, or_false] at hn
  rcases hn with rfl | rfl
  · exact plainName_objects
  · exact plainName_hash_take content

/-! ## Lemmas on Commit and Logs -/

theorem concatAll_append (xs ys : List String) :
    concatAll (xs ++ ys) = concatAll xs ++ concatAll ys := by
  induction xs with
  | nil => simp [concatAll]
  | cons x rest ih => simp [concatAll, ih, String.append_assoc]

theorem logText_append (xs ys : List (Path × String)) :
    logText (xs ++ ys) = logText xs ++ logText ys := by
  simp [logText, concatAll_append]

theorem storedObjects_append (fs : FS) (xs ys : List Path) :
    storedObjects fs (xs ++ ys) = storedObjects fs xs ++ storedObjects fs ys := by
  simp [storedObjects, List.filterMap_append]

theorem hasPrefixChars_append (p rest : List Char) : hasPrefixChars (p ++ rest) p = true := by
  induction p with
  | nil => cases rest <;> rfl
  | cons c cs ih => simp [hasPrefixChars, ih]

theorem HasPrefix_commitRecord (u e now1 now2 message : String) :
    HasPrefix (commitRecord u e now1 now2 message) "commit" = true := by
  have h : (commitRecord u e now1 now2 message).data =
      "commit".data ++ (' ' :: (now1.data ++ ("\nAuthor: ".data ++ (u.data ++ (" <".data ++
        (e.data ++ (">\nDate: ".data ++ (now2.data ++ ("\n\n".data ++
        (message.data ++ "\n".data)))))))))) := by
    simp only [commitRecord, String.data_append, List.append_assoc]
    rfl
  unfold HasPrefix
  rw [h]
  exact hasPrefixChars_append _ _

theorem logsLoop_readable (fs : FS) (paths : List Path) (out : String)
    (h : ∀ p ∈ paths, ∃ c, ReadFile fs p = .ok c) :
    logsLoop fs paths out = (out ++ logText (storedObjects fs paths), none) := by
  induction paths generalizing out with
  | nil => simp [logsLoop, storedObjects, logText, concatAll]
  | cons p rest ih =>
    obtain ⟨c, hc⟩ := h p (List.mem_cons_self _ _)
    have hrest : ∀ q ∈ rest, ∃ c, ReadFile fs q = .ok c :=
      fun q hq => h q (List.mem_cons_of_mem _ hq)
    have hso : storedObjects fs (p :: rest) = (p, c) :: storedObjects fs rest := by
      simp [storedObjects, hc]
    rw [hso]
    by_cases hp : HasPrefix c "commit" = true
    · have hlt : logText ((p, c) :: storedObjects fs rest) =
          logBlock (p, c) ++ logText (storedObjects fs rest) := by
        simp [logText, hp, concatAll]
      rw [hlt]
      simp only [logsLoop, hc, DecodeObject, hp, if_true]
      rw [ih _ hrest]
      simp [logBlock, String.append_assoc]
    · have hlt : logText ((p, c) :: storedObjects fs rest) =
          logText (storedObjects fs rest) := by
        simp [logText, hp]
      rw [hlt]
      simp only [logsLoop, hc, DecodeObject, hp]
      exact ih _ hrest

theorem Logs_readable (repo : GitRepo) (fs : FS) (paths : List Path)
    (hw : walkFiles fs (repo.Path ++ ["objects"]) = .ok paths)
    (h : ∀ p ∈ paths, ∃ c, ReadFile fs p = .ok c) :
    Logs repo fs = (logText (storedObjects fs paths), none) := by
  unfold Logs
  rw [Join_objects, hw]
  simp only []
  rw [logsLoop_readable fs paths "" h, String.empty_append]

theorem LoadConfig_Path {repo repo1 : GitRepo} {fs : FS} (h : LoadConfig repo fs = .ok repo1) :
    repo1.Path = repo.Path := by
  unfold LoadConfig at h
  split at h
  · cases h
  · split at h
    · cases h
    · cases h
      rfl

theorem Commit_ok {repo : GitRepo} {fs fs2 : FS} {now1 now2 message hash : String}
    (h : Commit repo fs now1 now2 message = ((hash, none), fs2)) :
    ∃ repo1 fs1,
      LoadConfig repo fs = .ok repo1 ∧
      hash = HashObject (commitRecord repo1.Username repo1.Email now1 now2 message) ∧
      MkdirAll fs (repo.Path ++ ["objects", strTake 2 hash]) = .ok fs1 ∧
      WriteFile fs1 (repo.Path ++ ["objects", strTake 2 hash, strDrop 2 hash])
        (commitRecord repo1.Username repo1.Email now1 now2 message) = .ok fs2 := by
  unfold Commit at h
  cases hl : LoadConfig repo fs with
  | error e => rw [hl] at h; simp at h
  | ok repo1 =>
    rw [hl] at h
    simp only [] at h
    have hp := LoadConfig_Path hl
    rw [Join_hash, Join_hash_dir, hp] at h
    cases hm : MkdirAll fs (repo.Path ++ ["objects",
        strTake 2 (HashObject (commitRecord repo1.Username repo1.Email now1 now2 message))]) with
    | error e => rw [hm] at h; simp at h
    | ok fs1 =>
      rw [hm] at h
      simp only [] at h
      cases hw : WriteFile fs1 (repo.Path ++ ["objects",
          strTake 2 (HashObject (commitRecord repo1.Username repo1.Email now1 now2 message)),
          strDrop 2 (HashObject (commitRecord repo1.Username repo1.Email now1 now2 message))])
          (commitRecord repo1.Username repo1.Email now1 now2 message) with
      | error e => rw [hw] at h; simp at h
      | ok fs3 =>
        rw [hw] at h
        simp only [Prod.mk.injEq, and_true] at h
        obtain ⟨h1, h2⟩ := h
        subst h1 h2
        exact ⟨repo1, fs1, rfl, rfl, hm, hw⟩

/-! ## Lemmas on the walk -/

theorem lstat_ok_true {fs : FS} {p : Path} (h : lstat fs p = .ok true) :
    underFile fs p = false ∧ fileAt fs.files p = none ∧ isDirAt fs p = true := by
  unfold lstat at h
  split at h
  · cases h
  · rename_i hu
    split at h
    · cases h
    · rename_i hf
      split at h
      · rename_i hd
        refine ⟨by simpa using hu, ?_, hd⟩
        cases hfa : fileAt fs.files p with
        | none => rfl
        | some v => rw [hfa] at hf; exact absurd rfl hf
      · cases h

theorem lstat_dir {fs : FS} {p : Path} (hu : underFile fs p = false)
    (hf : fileAt fs.files p = none) (hd : isDirAt fs p = true) : lstat fs p = .ok true := by
  simp [lstat, hu, hf, hd]

theorem underFile_child {fs : FS} {p : Path} {name : String} (hu : underFile fs p = false)
    (hf : fileAt fs.files p = none) : underFile fs (p ++ [name]) = false := by
  rw [underFile_eq_false] at hu ⊢
  intro q c r hq
  rcases List.eq_nil_or_concat r with rfl | ⟨r1, b, rfl⟩
  · have := List.append_inj' hq (by simp)
    rw [← this.1]
    exact hf
  · have e : p ++ [name] = (q ++ c :: r1) ++ [b] := by simpa using hq
    have := List.append_inj' e (by simp)
    exact hu q c r1 this.1

theorem underFile_parent {fs : FS} {p rest : Path} (hu : underFile fs (p ++ rest) = false) :
    underFile fs p = false := by
  rw [underFile_eq_false] at hu ⊢
  intro q c r hq
  apply hu q c (r ++ rest)
  rw [hq]
  simp

theorem isBelow_append (root : Path) (name : String) (rest : Path) :
    isBelow root (root ++ name :: rest) = true := by
  simp [isBelow]

theorem walkFiles_after_write {fs1 fs2 : FS} {dir : Path} {n1 n2 c : String}
    (hd : isDirAt fs1 dir = true)
    (hw : WriteFile fs1 (dir ++ [n1, n2]) c = .ok fs2) :
    walkFiles fs2 dir = .ok (((fs2.files.map Prod.fst).filter (isBelow dir)).insertionSort
        fun a b => pathLe a b = true) ∧
      (dir ++ [n1, n2]) ∈ ((fs2.files.map Prod.fst).filter (isBelow dir)).insertionSort
        fun a b => pathLe a b = true := by
  obtain ⟨hfiles, hdirs, hu⟩ := WriteFile_files hw
  have hne : dir ≠ dir ++ [n1, n2] := by
    intro e
    have := congrArg List.length e
    simp at this
  have hu1 : underFile fs1 dir = false := underFile_parent hu
  have hf1 : fileAt fs1.files dir = none := by
    rw [underFile_eq_false] at hu
    exact hu dir n1 [n2] rfl
  have hfs2 := WriteFile_eq hw
  have hu2 : underFile fs2 dir = false := by
    rw [hfs2]
    apply underFile_setFile c hu1
    intro d r e
    have := congrArg List.length e
    simp at this
  have hf2 : fileAt fs2.files dir = none := by
    rw [hfiles, fileAt_setFile_ne _ c hne]
    exact hf1
  have hd2 : isDirAt fs2 dir = true := by
    unfold isDirAt at hd ⊢
    rw [hdirs]
    exact hd
  refine ⟨?_, ?_⟩
  · unfold walkFiles
    rw [lstat_dir hu2 hf2 hd2]
  · rw [List.mem_insertionSort, List.mem_filter]
    refine ⟨?_, isBelow_append dir n1 [n2]⟩
    rw [hfiles]
    exact mem_paths_setFile _ _ _

/-! ## Lemmas on substrings and well-formed trees -/

theorem hasPrefixChars_iff (s p : List Char) :
    hasPrefixChars s p = true ↔ ∃ r, s = p ++ r := by
  induction p generalizing s with
  | nil => cases s <;> simp [hasPrefixChars]
  | cons c cs ih =>
    cases s with
    | nil => simp [hasPrefixChars]
    | cons d ds =>
      by_cases h : d = c
      · subst h
        simp [hasPrefixChars, ih]
      · have h1 : ¬ c = d := fun e => h e.symm
        simp [hasPrefixChars, h, h1]

theorem containsChars_iff (s t : List Char) :
    containsChars s t = true ↔ ∃ a b, s = a ++ t ++ b := by
  induction s with
  | nil =>
    rw [containsChars, hasPrefixChars_iff]
    constructor
    · rintro ⟨r, hr⟩
      exact ⟨[], r, by simpa using hr⟩
    · rintro ⟨a, b, h⟩
      have h1 : a ++ t ++ b = [] := h.symm
      simp only [List.append_eq_nil] at h1
      exact ⟨[], by simp [h1.1.2]⟩
  | cons c cs ih =>
    rw [containsChars, Bool.or_eq_true, hasPrefixChars_iff, ih]
    constructor
    · rintro (⟨r, hr⟩ | ⟨a, b, h⟩)
      · exact ⟨[], r, by simpa using hr⟩
      · exact ⟨c :: a, b, by simp [h]⟩
    · rintro ⟨a, b, h⟩
      cases a with
      | nil => exact Or.inl ⟨b, by simpa using h⟩
      | cons x xs =>
        simp only [List.cons_append, List.cons.injEq] at h
        exact Or.inr ⟨xs, b, h.2⟩

theorem containsStr_iff (s t : String) :
    containsStr s t = true ↔ ∃ pre post : String, s = pre ++ t ++ post := by
  unfold containsStr
  rw [containsChars_iff]
  constructor
  · rintro ⟨a, b, h⟩
    refine ⟨String.mk a, String.mk b, ?_⟩
    apply String.ext
    simp [String.data_append, h]
  · rintro ⟨pre, post, h⟩
    exact ⟨pre.data, post.data, by rw [h]; simp [String.data_append]⟩

theorem fileAt_of_mem (l : List (Path × String)) (p : Path) (h : p ∈ l.map Prod.fst) :
    ∃ c, fileAt l p = some c := by
  induction l with
  | nil => simp at h
  | cons hd tl ih =>
    obtain ⟨q, d⟩ := hd
    by_cases hq : q = p
    · exact ⟨d, by simp [fileAt, hq]⟩
    · have hp : p ∈ tl.map Prod.fst := by
        simp only [List.map_cons, List.mem_cons] at h
        rcases h with e | e
        · exact absurd e.symm hq
        · exact e
      obtain ⟨c, hc⟩ := ih hp
      exact ⟨c, by simp [fileAt, hq, hc]⟩

theorem mem_paths_of_setFile (l : List (Path × String)) (p q : Path) (c : String)
    (h : q ∈ (setFile l p c).map Prod.fst) : q = p ∨ q ∈ l.map Prod.fst := by
  induction l with
  | nil =>
    simp only [setFile, List.map_cons, List.map_nil, List.mem_singleton] at h
    exact Or.inl h
  | cons hd tl ih =>
    obtain ⟨r, d⟩ := hd
    by_cases hr : r = p
    · simp only [setFile, hr, if_true, List.map_cons, List.mem_cons] at h
      rcases h with e | e
      · exact Or.inl e
      · exact Or.inr (by simp [e])
    · simp only [setFile, hr, if_false, List.map_cons, List.mem_cons] at h
      rcases h with e | e
      · exact Or.inr (by simp [e])
      · rcases ih e with e1 | e1
        · exact Or.inl e1
        · exact Or.inr (by simp [e1])

theorem underFile_congr {fs fs1 : FS} (h : fs1.files = fs.files) (p : Path) :
    underFile fs1 p = underFile fs p := by
  unfold underFile
  rw [h]

theorem WriteFile_not_dir {fs fs1 : FS} {p : Path} {c : String}
    (h : WriteFile fs p c = .ok fs1) : isDirAt fs p = false := by
  unfold WriteFile at h
  split at h
  · cases h
  · split at h
    · cases h
    · rename_i hd
      simpa using hd

theorem isDirAt_mono {fs fs1 : FS} (h : ∀ q, q ∈ fs.dirs → q ∈ fs1.dirs) {p : Path}
    (hp : isDirAt fs p = true) : isDirAt fs1 p = true := by
  unfold isDirAt at hp ⊢
  simp only [Bool.or_eq_true, decide_eq_true_eq] at hp ⊢
  rcases hp with e | e
  · exact Or.inl e
  · exact Or.inr (h p e)

theorem wellFormed_spec {fs : FS} (h : wellFormed fs = true) {p : Path}
    (hp : p ∈ fs.files.map Prod.fst) :
    underFile fs p = false ∧ ∀ q ∈ properInits p, isDirAt fs q = true := by
  unfold wellFormed at h
  rw [List.all_eq_true] at h
  obtain ⟨e, he, rfl⟩ := List.mem_map.mp hp
  have := h e he
  simp only [Bool.and_eq_true, Bool.not_eq_true', List.all_eq_true] at this
  exact this

theorem readable_after_Commit {repo : GitRepo} {fs fs2 : FS}
    {now1 now2 message hash : String} (hwf : wellFormed fs = true)
    (hc : Commit repo fs now1 now2 message = ((hash, none), fs2)) :
    readableStore repo fs2 = true := by
  obtain ⟨repo1, fs1, _, _, hm, hw⟩ := Commit_ok hc
  obtain ⟨hfiles1, _, _, hdirs1, hmk⟩ := MkdirAll_ok hm
  have hobj : isDirAt fs1 (repo.Path ++ ["objects"]) = true := by
    apply hmk
    right
    rw [mem_properInits]
    exact ⟨strTake 2 hash, [], by simp⟩
  have hw1 : WriteFile fs1 ((repo.Path ++ ["objects"]) ++ [strTake 2 hash, strDrop 2 hash])
      (commitRecord repo1.Username repo1.Email now1 now2 message) = .ok fs2 := by
    simpa using hw
  obtain ⟨hwalk, _⟩ := walkFiles_after_write hobj hw1
  obtain ⟨hfiles2, _, hu⟩ := WriteFile_files hw
  have hnd := WriteFile_not_dir hw
  have hfs2 := WriteFile_eq hw
  have hmemfiles : ∀ p ∈ ((fs2.files.map Prod.fst).filter
      (isBelow (repo.Path ++ ["objects"]))).insertionSort (fun a b => pathLe a b = true),
      p ∈ fs2.files.map Prod.fst := by
    intro p hp
    rw [List.mem_insertionSort, List.mem_filter] at hp
    exact hp.1
  unfold readableStore
  rw [hwalk]
  simp only [List.all_eq_true]
  intro p hp
  have hpf := hmemfiles p hp
  obtain ⟨c, hc1⟩ := fileAt_of_mem _ _ hpf
  have hup : underFile fs2 p = false := by
    by_cases hpt : p = repo.Path ++ ["objects", strTake 2 hash, strDrop 2 hash]
    · subst hpt
      rw [hfs2]
      apply underFile_setFile _ hu
      intro d r e
      have := congrArg List.length e
      simp at this
    · rw [hfiles2] at hpf
      have hp1 : p ∈ fs1.files.map Prod.fst := by
        rcases mem_paths_of_setFile _ _ _ _ hpf with e | e
        · exact absurd e hpt
        · exact e
      rw [hfiles1] at hp1
      obtain ⟨hwu, hwd⟩ := wellFormed_spec hwf hp1
      rw [hfs2]
      apply underFile_setFile
      · rw [underFile_congr hfiles1]
        exact hwu
      · intro d r e
        have hin : repo.Path ++ ["objects", strTake 2 hash, strDrop 2 hash] ∈ properInits p :=
          mem_properInits.mpr ⟨d, r, e⟩
        have hd1 := isDirAt_mono hdirs1 (hwd _ hin)
        rw [hnd] at hd1
        cases hd1
  simp [ReadFile, hup, hc1]

theorem readableStore_spec {repo : GitRepo} {fs : FS} (h : readableStore repo fs = true) :
    ∃ paths, walkFiles fs (repo.Path ++ ["objects"]) = .ok paths ∧
      ∀ p ∈ paths, ∃ c, ReadFile fs p = .ok c := by
  unfold readableStore at h
  cases hw : walkFiles fs (repo.Path ++ ["objects"]) with
  | error e => rw [hw] at h; cases h
  | ok paths =>
    rw [hw] at h
    refine ⟨paths, rfl, ?_⟩
    intro p hp
    have hall := List.all_eq_true.mp h p hp
    cases hr : ReadFile fs p with
    | error e => rw [hr] at hall; cases hall
    | ok c => exact ⟨c, rfl⟩

theorem initFiles_cons {repo : GitRepo} {fs fs2 : FS} {name content : String}
    {rest : List (String × String)}
    (h : initFiles repo fs ((name, content) :: rest) = (none, fs2)) :
    ∃ fs1, WriteFile fs (Join repo.Path name) content = .ok fs1 ∧
      initFiles repo fs1 rest = (none, fs2) := by
  unfold initFiles at h
  cases hw : WriteFile fs (Join repo.Path name) content with
  | error e => rw [hw] at h; simp at h
  | ok fs1 =>
    rw [hw] at h
    exact ⟨fs1, rfl, h⟩

theorem Init_config_json {repo : GitRepo} {fs0 fs : FS} (h : Init repo fs0 = (none, fs)) :
    ReadFile fs (repo.Path ++ ["config.json"]) = .ok "" := by
  unfold Init at h
  split at h
  · cases h
  · rename_i fs1 _
    unfold defaultFiles at h
    obtain ⟨fs2, _, h2⟩ := initFiles_cons h
    obtain ⟨fs3, _, h3⟩ := initFiles_cons h2
    obtain ⟨fs4, _, h4⟩ := initFiles_cons h3
    obtain ⟨fs5, hw, h5⟩ := initFiles_cons h4
    unfold initFiles at h5
    cases h5
    rw [Join_config_json] at hw
    exact ReadFile_WriteFile hw

theorem baseName_object (root : Path) (a b : String) :
    baseName (root ++ ["objects", a, b]) = b := by
  have e : root ++ ["objects", a, b] = (root ++ ["objects", a]) ++ [b] := by simp
  rw [baseName, e, List.getLastD_concat]

theorem Logs_after_Commit {repo : GitRepo} {fs fs2 : FS}
    {now1 now2 message hash : String}
    (hc : Commit repo fs now1 now2 message = ((hash, none), fs2))
    (hr : readableStore repo fs2 = true) :
    ∃ (repo1 : GitRepo) (pre post : String),
      ReadFile fs2 (repo.Path ++ ["objects", strTake 2 hash, strDrop 2 hash]) =
        .ok (commitRecord repo1.Username repo1.Email now1 now2 message) ∧
      Logs repo fs2 =
        (pre ++ ("commit " ++ strDrop 2 hash ++ "\n" ++
          commitRecord repo1.Username repo1.Email now1 now2 message ++ "\n\n") ++ post,
          none) := by
  obtain ⟨paths2, hwalk2, hread2⟩ := readableStore_spec hr
  obtain ⟨repo1, fs1, _, hh, hm, hw⟩ := Commit_ok hc
  have hobj : isDirAt fs1 (repo.Path ++ ["objects"]) = true := by
    apply (MkdirAll_ok hm).2.2.2.2
    right
    rw [mem_properInits]
    exact ⟨strTake 2 hash, [], by simp⟩
  have hw1 : WriteFile fs1 ((repo.Path ++ ["objects"]) ++ [strTake 2 hash, strDrop 2 hash])
      (commitRecord repo1.Username repo1.Email now1 now2 message) = .ok fs2 := by
    simpa using hw
  obtain ⟨hwalk, hmem⟩ := walkFiles_after_write hobj hw1
  have hp : paths2 = ((fs2.files.map Prod.fst).filter
      (isBelow (repo.Path ++ ["objects"]))).insertionSort (fun a b => pathLe a b = true) := by
    rw [hwalk] at hwalk2
    cases hwalk2
    rfl
  rw [← hp] at hmem
  have hmem1 : repo.Path ++ ["objects", strTake 2 hash, strDrop 2 hash] ∈ paths2 := by
    simpa using hmem
  have hread := ReadFile_WriteFile hw
  have hlogs := Logs_readable repo fs2 paths2 hwalk2 hread2
  obtain ⟨l1, l2, hsplit⟩ := List.append_of_mem hmem1
  have hbase : baseName (repo.Path ++ ["objects", strTake 2 hash, strDrop 2 hash]) =
      strDrop 2 hash := baseName_object repo.Path _ _
  have hblock : logText (storedObjects fs2 paths2) =
      logText (storedObjects fs2 l1) ++
        ("commit " ++ strDrop 2 hash ++ "\n" ++
          commitRecord repo1.Username repo1.Email now1 now2 message ++ "\n\n") ++
        logText (storedObjects fs2 l2) := by
    have e : l1 ++ (repo.Path ++ ["objects", strTake 2 hash, strDrop 2 hash]) :: l2 =
        l1 ++ ([repo.Path ++ ["objects", strTake 2 hash, strDrop 2 hash]] ++ l2) := by simp
    rw [hsplit, e, storedObjects_append, storedObjects_append, logText_append, logText_append]
    have hone : logText (storedObjects fs2
        [repo.Path ++ ["objects", strTake 2 hash, strDrop 2 hash]]) =
        "commit " ++ strDrop 2 hash ++ "\n" ++
          commitRecord repo1.Username repo1.Email now1 now2 message ++ "\n\n" := by
      simp [storedObjects, hread, logText, HasPrefix_commitRecord, concatAll, logBlock, hbase]
    rw [hone]
    simp only [String.append_assoc]
  exact ⟨repo1, logText (storedObjects fs2 l1), logText (storedObjects fs2 l2), hread,
    by rw [hlogs, hblock]⟩

theorem hash_split {repo : GitRepo} {fs fs2 : FS} {now1 now2 message hash : String}
    (hc : Commit repo fs now1 now2 message = ((hash, none), fs2)) :
    hash.length = 40 ∧ (strTake 2 hash).length = 2 ∧ (strDrop 2 hash).length = 38 ∧
      strTake 2 hash ++ strDrop 2 hash = hash := by
  obtain ⟨repo1, fs1, _, hh, _, _⟩ := Commit_ok hc
  have hlen : hash.length = 40 := by rw [hh]; exact HashObject_length _
  have hlen1 : hash.data.length = 40 := hlen
  refine ⟨hlen, ?_, ?_, ?_⟩
  · show (hash.data.take 2).length = 2
    rw [List.length_take]; omega
  · show (hash.data.drop 2).length = 38
    rw [List.length_drop]; omega
  · apply String.ext
    rw [String.data_append]
    exact List.take_append_drop 2 hash.data

set_option maxRecDepth 100000

/-! ## Status -/

/-- C1 (the code departs from the claim): a.txt is staged with content
hello, so the index holds its record, and is then edited to world, which
hashes differently.  Status succeeds, but it reads the whole index line as a
path: it lists the record as deleted and a.txt as untracked, and prints no
modified line. -/
theorem Status_after_edit_of_staged_file :
    Add mainRepo (saveFile initTree [".git", "a.txt"] "hello") [".git", "a.txt"] =
      some (none, stagedTree) ∧
    ReadFile stagedTree [".git", "index"] =
      .ok "aaf4c61ddcc5e8a2dabede0f3b482cd9aea9434d .git/a.txt\n" ∧
    WriteFile stagedTree [".git", "a.txt"] "world" = .ok editedTree ∧
    HashFile editedTree [".git", "a.txt"] = "7c211433f02071597741e6ff5a8ea34789abbf43" ∧
    Status mainRepo editedTree =
      ("On branch master\n\nChanges to be committed:\n\tdeleted:   aaf4c61ddcc5e8a2dabede0f3b482cd9aea9434d .git/a.txt\n\nUntracked files:\n\ta.txt\n",
        none) ∧
    containsStr (Status mainRepo editedTree).1 "modified:" = false := by
  decide

/-- C2 (the code departs from the claim): the only working-tree file a.txt
is staged and unchanged, and the only index record names it.  Status does
not return the bare header: it lists the record as deleted and a.txt as
untracked. -/
theorem Status_of_unchanged_staged_file :
    scanWorkingDir mainRepo stagedTree =
      .ok [("a.txt", "aaf4c61ddcc5e8a2dabede0f3b482cd9aea9434d")] ∧
    ReadFile stagedTree [".git", "index"] =
      .ok "aaf4c61ddcc5e8a2dabede0f3b482cd9aea9434d .git/a.txt\n" ∧
    HashFile stagedTree [".git", "a.txt"] = "aaf4c61ddcc5e8a2dabede0f3b482cd9aea9434d" ∧
    Status mainRepo stagedTree =
      ("On branch master\n\nChanges to be committed:\n\tdeleted:   aaf4c61ddcc5e8a2dabede0f3b482cd9aea9434d .git/a.txt\n\nUntracked files:\n\ta.txt\n",
        none) ∧
    (Status mainRepo stagedTree).1 ≠ "On branch master\n\n" := by
  decide

/-- C6 (the code departs from the claim): after a commit and the staging of
a file, the snapshot that Status builds holds the stored object under its
path objects/fd/a732..., which IsExcluded does not exclude, and Status lists
it as untracked. -/
theorem Status_lists_stored_object :
    ReadFile committedStagedTree
        [".git", "objects", "fd", "a732efe95b62743727767141d8035430cc94d7"] =
      .ok "commit Sun Nov 1 12:00:00 2026 +0000\nAuthor: alice <a@x.com>\nDate: Sun, 01 Nov 2026 12:00:00 UTC\n\nfirst\n" ∧
    IsExcluded "objects/fd/a732efe95b62743727767141d8035430cc94d7" = false ∧
    scanWorkingDir mainRepo committedStagedTree =
      .ok [("objects/fd/a732efe95b62743727767141d8035430cc94d7",
        "fda732efe95b62743727767141d8035430cc94d7")] ∧
    Status mainRepo committedStagedTree =
      ("On branch master\n\nChanges to be committed:\n\tdeleted:   7c211433f02071597741e6ff5a8ea34789abbf43 b.txt\n\nUntracked files:\n\tobjects/fd/a732efe95b62743727767141d8035430cc94d7\n",
        none) := by
  decide

/-- C7: when the repository directory can be walked and nothing exists at
the index path, Status returns no error and exactly the fixed text, whatever
files the working tree holds. -/
theorem Status_without_index (repo : GitRepo) (fs : FS)
    (hroot : lstat fs repo.Path = .ok true)
    (hfile : fileAt fs.files (repo.Path ++ ["index"]) = none)
    (hdir : repo.Path ++ ["index"] ∉ fs.dirs) :
    Status repo fs =
      ("No commits yet\nnothing to commit (create/copy files and use \"git add\" to track)\n",
        none) := by
  obtain ⟨hu, hf, _⟩ := lstat_ok_true hroot
  have hread : ReadFile fs (repo.Path ++ ["index"]) = .error .notExist := by
    have hu1 : underFile fs (repo.Path ++ ["index"]) = false := underFile_child hu hf
    have hd1 : isDirAt fs (repo.Path ++ ["index"]) = false := by
      simp [isDirAt, hdir]
    simp [ReadFile, hu1, hfile, hd1]
  simp [Status, scanWorkingDir, walkFiles, hroot, Join_index, hread, noCommitsYet]

/-- Witness of C7: the tree after git init with a file saved in the
repository directory and no index. -/
theorem Status_without_index_witness :
    lstat (saveFile initTree [".git", "a.txt"] "hello") mainRepo.Path = .ok true ∧
    scanWorkingDir mainRepo (saveFile initTree [".git", "a.txt"] "hello") =
      .ok [("a.txt", "aaf4c61ddcc5e8a2dabede0f3b482cd9aea9434d")] ∧
    Status mainRepo (saveFile initTree [".git", "a.txt"] "hello") =
      ("No commits yet\nnothing to commit (create/copy files and use \"git add\" to track)\n",
        none) :=
  ⟨by decide, by decide,
    Status_without_index mainRepo (saveFile initTree [".git", "a.txt"] "hello")
      (by decide) (by decide) (by decide)⟩

/-! ## Add -/

/-- C4 (the code departs from the claim): a.txt is staged and then b.txt.
Each Add replaces the whole index file, so after the second Add the index is
the single record of b.txt and the record of a.txt is gone. -/
theorem Add_second_path_replaces_index :
    Add mainRepo twoFilesTree ["a.txt"] =
      some (none, afterAdd mainRepo twoFilesTree ["a.txt"]) ∧
    ReadFile (afterAdd mainRepo twoFilesTree ["a.txt"]) [".git", "index"] =
      .ok "aaf4c61ddcc5e8a2dabede0f3b482cd9aea9434d a.txt\n" ∧
    Add mainRepo (afterAdd mainRepo twoFilesTree ["a.txt"]) ["b.txt"] =
      some (none, afterAdd mainRepo (afterAdd mainRepo twoFilesTree ["a.txt"]) ["b.txt"]) ∧
    ReadFile (afterAdd mainRepo (afterAdd mainRepo twoFilesTree ["a.txt"]) ["b.txt"])
        [".git", "index"] =
      .ok "7c211433f02071597741e6ff5a8ea34789abbf43 b.txt\n" := by
  decide

/-! ## Diff -/

/-- C5 (the code departs from the claim): a.txt is staged, so the index
holds its record, yet Diff succeeds with a block for a.txt in its output. -/
theorem Diff_prints_staged_file :
    ReadFile stagedTree [".git", "index"] =
      .ok "aaf4c61ddcc5e8a2dabede0f3b482cd9aea9434d .git/a.txt\n" ∧
    ListFiles stagedTree mainRepo.Path =
      (["HEAD", "a.txt", "config", "config.json", "description", "index"], none) ∧
    (Diff mainRepo stagedTree).2 = none ∧
    containsStr (Diff mainRepo stagedTree).1
      "diff --git a/a.txt b/a.txt\nnew file mode 100644\n--- /dev/null\n+++ b/a.txt\nhello\n" =
      true := by
  decide

/-! ## Commit -/

/-- C8: when config.json cannot be read, or its content is not a JSON text
that decodes into the configuration, or the tree is as Init left it (Init
writes an empty config.json), Commit returns an error with the empty hash and
leaves the file system, the object store included, as it was. -/
theorem Commit_without_config (repo : GitRepo) (fs : FS) (now1 now2 message : String)
    (h : (∃ e, ReadFile fs (repo.Path ++ ["config.json"]) = .error e) ∨
      (∃ data e, ReadFile fs (repo.Path ++ ["config.json"]) = .ok data ∧
        jsonUnmarshal data = .error e) ∨
      (∃ fs0, Init repo fs0 = (none, fs))) :
    ∃ e, Commit repo fs now1 now2 message = (("", some e), fs) := by
  rcases h with ⟨e, he⟩ | ⟨data, e, hd, he⟩ | ⟨fs0, hi⟩
  · exact ⟨e, by simp [Commit, LoadConfig, Join_config_json, he]⟩
  · exact ⟨e, by simp [Commit, LoadConfig, Join_config_json, hd, he]⟩
  · have hd := Init_config_json hi
    have he : jsonUnmarshal "" = .error .badJSON := by decide
    exact ⟨.badJSON, by simp [Commit, LoadConfig, Join_config_json, hd, he]⟩

/-- Witness of C8: the empty config.json that Init writes. -/
theorem Commit_without_config_witness :
    Init mainRepo emptyTree = (none, initTree) ∧
    ReadFile initTree [".git", "config.json"] = .ok "" ∧
    jsonUnmarshal "" = .error .badJSON ∧
    ∃ e, Commit mainRepo initTree "Sun Nov 1 12:00:00 2026 +0000"
      "Sun, 01 Nov 2026 12:00:00 UTC" "first" = (("", some e), initTree) :=
  ⟨by decide, by decide, by decide,
    Commit_without_config mainRepo initTree _ _ _
      (Or.inr (Or.inl ⟨"", .badJSON, by decide, by decide⟩))⟩

/-- C9: a successful Commit returns 40 lowercase hexadecimal characters; the
object is stored at objects/(first 2 characters)/(remaining 38 characters);
the returned hash is HashObject of the content stored there; and no other
file is written or changed. -/
theorem Commit_stores_by_hash (repo : GitRepo) (fs fs2 : FS)
    (now1 now2 message hash : String)
    (h : Commit repo fs now1 now2 message = ((hash, none), fs2)) :
    hash.length = 40 ∧ (∀ c ∈ hash.data, c ∈ hexDigits) ∧
    (strTake 2 hash).length = 2 ∧ (strDrop 2 hash).length = 38 ∧
    strTake 2 hash ++ strDrop 2 hash = hash ∧
    (∃ stored,
      ReadFile fs2 (repo.Path ++ ["objects", strTake 2 hash, strDrop 2 hash]) = .ok stored ∧
      HashObject stored = hash) ∧
    (∀ p, p ≠ repo.Path ++ ["objects", strTake 2 hash, strDrop 2 hash] →
      fileAt fs2.files p = fileAt fs.files p) := by
  obtain ⟨repo1, fs1, _, hh, hm, hw⟩ := Commit_ok h
  obtain ⟨hlen, ht, hd, hsplit⟩ := hash_split h
  refine ⟨hlen, ?_, ht, hd, hsplit, ?_, ?_⟩
  · rw [hh]; exact HashObject_digits _
  · exact ⟨_, ReadFile_WriteFile hw, hh.symm⟩
  · intro p hp
    obtain ⟨hfiles, _, _⟩ := WriteFile_files hw
    rw [hfiles, fileAt_setFile_ne _ _ hp, (MkdirAll_ok hm).1]

/-- Witness of C9: the commit of the message first by alice. -/
theorem Commit_stores_by_hash_witness :
    Commit mainRepo configuredTree "Sun Nov 1 12:00:00 2026 +0000"
      "Sun, 01 Nov 2026 12:00:00 UTC" "first" =
      (("fda732efe95b62743727767141d8035430cc94d7", none), committedTree) ∧
    ("fda732efe95b62743727767141d8035430cc94d7" : String).length = 40 ∧
    (∃ stored,
      ReadFile committedTree (mainRepo.Path ++ ["objects",
        strTake 2 "fda732efe95b62743727767141d8035430cc94d7",
        strDrop 2 "fda732efe95b62743727767141d8035430cc94d7"]) = .ok stored ∧
      HashObject stored = "fda732efe95b62743727767141d8035430cc94d7") :=
  have h := Commit_stores_by_hash mainRepo configuredTree committedTree
    "Sun Nov 1 12:00:00 2026 +0000" "Sun, 01 Nov 2026 12:00:00 UTC" "first"
    "fda732efe95b62743727767141d8035430cc94d7" (by decide)
  ⟨by decide, h.1, h.2.2.2.2.2.1⟩

/-! ## Logs -/

/-- C3 (the code departs from the claim): Commit returns the hash fda7...,
the following Logs succeeds, and its output does not contain the
40-character hash: Logs names the commit by the file name of the object, the
last 38 characters, and drops the 2 characters of the directory that Commit
put in the path. -/
theorem Logs_lacks_returned_hash :
    wellFormed configuredTree = true ∧
    Commit mainRepo configuredTree "Sun Nov 1 12:00:00 2026 +0000"
      "Sun, 01 Nov 2026 12:00:00 UTC" "first" =
      (("fda732efe95b62743727767141d8035430cc94d7", none), committedTree) ∧
    Logs mainRepo committedTree =
      ("commit a732efe95b62743727767141d8035430cc94d7\ncommit Sun Nov 1 12:00:00 2026 +0000\nAuthor: alice <a@x.com>\nDate: Sun, 01 Nov 2026 12:00:00 UTC\n\nfirst\n\n\n",
        none) ∧
    ¬ ∃ pre post : String, (Logs mainRepo committedTree).1 =
      pre ++ "fda732efe95b62743727767141d8035430cc94d7" ++ post :=
  ⟨by decide, by decide, by decide,
    fun h => absurd ((containsStr_iff _ _).mpr h) (by decide)⟩

/-- What Logs prints for a new commit on any well-formed tree: a line made
of the word commit and the last 38 characters of the returned hash, which
are the file name of the stored object; the first 2 characters of the hash
are the name of its directory and are not part of that line. -/
theorem Logs_shows_object_name (repo : GitRepo) (fs fs2 : FS)
    (now1 now2 message hash : String)
    (hwf : wellFormed fs = true)
    (hc : Commit repo fs now1 now2 message = ((hash, none), fs2)) :
    ∃ out,
      Logs repo fs2 = (out, none) ∧
      (∃ pre post, out = pre ++ ("commit " ++ strDrop 2 hash ++ "\n") ++ post) ∧
      (∃ pre post, out = pre ++ strDrop 2 hash ++ post) ∧
      (strDrop 2 hash).length = 38 ∧
      strTake 2 hash ++ strDrop 2 hash = hash ∧
      baseName (repo.Path ++ ["objects", strTake 2 hash, strDrop 2 hash]) = strDrop 2 hash := by
  obtain ⟨repo1, pre, post, _, hlogs⟩ := Logs_after_Commit hc (readable_after_Commit hwf hc)
  obtain ⟨_, _, hd, hsplit⟩ := hash_split hc
  refine ⟨_, hlogs, ?_, ?_, hd, hsplit, baseName_object _ _ _⟩
  · refine ⟨pre, commitRecord repo1.Username repo1.Email now1 now2 message ++ "\n\n" ++ post, ?_⟩
    apply String.ext
    simp only [String.data_append, List.append_assoc]
  · refine ⟨pre ++ "commit ", "\n" ++
      commitRecord repo1.Username repo1.Email now1 now2 message ++ "\n\n" ++ post, ?_⟩
    apply String.ext
    simp only [String.data_append, List.append_assoc]

/-- C10: after a successful Commit, Logs on a readable store succeeds; one
block of its output is the word commit, the file name of the new object, a
line break, the commit record as stored and two line breaks; and so the
output contains the message.  On every readable store the output of Logs is
the concatenation, in enumeration order, of the blocks of the stored objects
whose content begins with commit. -/
theorem Logs_shows_commit (repo : GitRepo) (fs fs2 : FS)
    (now1 now2 message hash : String)
    (hc : Commit repo fs now1 now2 message = ((hash, none), fs2))
    (hr : readableStore repo fs2 = true) :
    (∀ fs0 : FS, readableStore repo fs0 = true →
      ∃ paths0, walkFiles fs0 (repo.Path ++ ["objects"]) = .ok paths0 ∧
        Logs repo fs0 = (logText (storedObjects fs0 paths0), none)) ∧
    ∃ out stored,
      Logs repo fs2 = (out, none) ∧
      ReadFile fs2 (repo.Path ++ ["objects", strTake 2 hash, strDrop 2 hash]) = .ok stored ∧
      baseName (repo.Path ++ ["objects", strTake 2 hash, strDrop 2 hash]) = strDrop 2 hash ∧
      (∃ pre post,
        out = pre ++ ("commit " ++ strDrop 2 hash ++ "\n" ++ stored ++ "\n\n") ++ post) ∧
      (∃ pre post, out = pre ++ message ++ post) := by
  constructor
  · intro fs0 h0
    obtain ⟨paths0, hw0, hr0⟩ := readableStore_spec h0
    exact ⟨paths0, hw0, Logs_readable repo fs0 paths0 hw0 hr0⟩
  obtain ⟨repo1, pre, post, hread, hlogs⟩ := Logs_after_Commit hc hr
  refine ⟨_, _, hlogs, hread, baseName_object _ _ _, ⟨pre, post, rfl⟩, ?_⟩
  refine ⟨pre ++ ("commit " ++ strDrop 2 hash ++ "\n" ++
      ("commit " ++ now1 ++ "\nAuthor: " ++ repo1.Username ++ " <" ++ repo1.Email ++
        ">\nDate: " ++ now2 ++ "\n\n")),
    "\n" ++ "\n\n" ++ post, ?_⟩
  apply String.ext
  simp only [commitRecord, String.data_append, List.append_assoc]

/-- Witness of C10: the log after the commit of the message first. -/
theorem Logs_shows_commit_witness :
    readableStore mainRepo committedTree = true ∧
    Logs mainRepo committedTree =
      ("commit a732efe95b62743727767141d8035430cc94d7\ncommit Sun Nov 1 12:00:00 2026 +0000\nAuthor: alice <a@x.com>\nDate: Sun, 01 Nov 2026 12:00:00 UTC\n\nfirst\n\n\n",
        none) ∧
    ∃ out, Logs mainRepo committedTree = (out, none) ∧ ∃ pre post, out = pre ++ "first" ++ post :=
  have h := (Logs_shows_commit mainRepo configuredTree committedTree
    "Sun Nov 1 12:00:00 2026 +0000" "Sun, 01 Nov 2026 12:00:00 UTC" "first"
    "fda732efe95b62743727767141d8035430cc94d7" (by decide) (by decide)).2
  ⟨by decide, by decide,
    match h with
    | ⟨out, _, ho, _, _, _, hm⟩ => ⟨out, ho, hm⟩⟩

end GitCLI
